import Mathlib

/-!
Shallow embedding of the HC-Wacom path/trace/canvas/playback core
(`src/hc/src/path.rs` and `src/hc/src/robot.rs`).

Modelling conventions:
* machine integers (`u32`, `usize`, `i64`) are modelled as `ℕ` / `ℤ`;
  the specific Rust casts are modelled explicitly where they occur
  (`as usize` on a float saturates below at 0, `as u32` on an `i64`
  wraps modulo `2^32`, `as u32` / `as i32` on an `f64` saturate);
* `f64` values are modelled as exact rationals `ℚ`;
* operations that can panic in Rust (canvas construction with a zero
  dimension, the `unwrap` of `index_offset` inside `set`, the re-entry
  guard of `play_and_notify`) return `Option`.
-/

set_option maxHeartbeats 1000000

/-- A point on the screen along a curve (`Point` in `path.rs`). -/
structure Point where
  x : ℚ
  y : ℚ
  touch : Bool
deriving DecidableEq

/-- The part of a digitizer event (`stu::Event`) that the path/canvas
core reads: normalized coordinates and the touching flag. -/
structure SEvent where
  x : ℚ
  y : ℚ
  touching : Bool
deriving DecidableEq

/-- `f64::round`: round half away from zero, as an integer. -/
def rustRound (q : ℚ) : ℤ :=
  if 0 ≤ q then ⌊q + 1 / 2⌋ else -⌊-q + 1 / 2⌋

/-- `as u32` applied to a (rounded, integral) `f64`: saturating cast. -/
def u32_of_f64 (z : ℤ) : ℕ :=
  min z.toNat (2 ^ 32 - 1)

/-- `as u32` applied to an `i64`: wrapping cast. -/
def u32_of_i64 (z : ℤ) : ℕ :=
  (z % 2 ^ 32).toNat

/-- `EventCanvas` from `path.rs`: a bit-packed monochrome pixel buffer
(each byte holds 8 pixels, low bit first), the dimensions, and the last
point the pen stroke. -/
structure EventCanvas where
  buffer : List ℕ
  width : ℕ
  height : ℕ
  last : Option (ℕ × ℕ)
deriving DecidableEq

/-- `EventCanvas::new`: panics (here `none`) when either dimension is
zero; otherwise allocates `bits / 8 + (bits % 8 == 0 ? 0 : 1)` zero
bytes. -/
def EventCanvas.new (width height : ℕ) : Option EventCanvas :=
  if width = 0 then none
  else if height = 0 then none
  else
    let bits := width * height
    let bytes := bits / 8 + (if bits % 8 = 0 then 0 else 1)
    some { buffer := List.replicate bytes 0, width := width, height := height, last := none }

/-- `EventCanvas::index_offset`: byte index and bit offset of pixel
`(x, y)`, bounds-checked. -/
def EventCanvas.index_offset (c : EventCanvas) (x y : ℕ) : Option (ℕ × ℕ) :=
  if x ≥ c.width ∨ y ≥ c.height then none
  else
    let pixel := y * c.width + x
    some (pixel / 8, pixel % 8)

/-- `EventCanvas::get`: whether the pixel at `(x, y)` is set; `none`
out of bounds. -/
def EventCanvas.get (c : EventCanvas) (x y : ℕ) : Option Bool :=
  (c.index_offset x y).map (fun io => (c.buffer.getD io.1 0) &&& (1 <<< io.2) != 0)

/-- `EventCanvas::set`: sets or clears the pixel at `(x, y)`; the Rust
code `unwrap`s the `index_offset`, so an out-of-bounds write is a panic,
modelled as `none`. -/
def EventCanvas.set (c : EventCanvas) (x y : ℕ) (val : Bool) : Option EventCanvas :=
  (c.index_offset x y).map (fun io =>
    let b := c.buffer.getD io.1 0
    let b' := if val then b ||| (1 <<< io.2) else b &&& (255 ^^^ (1 <<< io.2))
    { c with buffer := c.buffer.set io.1 b' })

/-- `EventCanvas::clear`: zeroes every byte of the buffer (and touches
nothing else, in particular not `last`). -/
def EventCanvas.clear (c : EventCanvas) : EventCanvas :=
  { c with buffer := c.buffer.map (fun _ => 0) }

theorem ceil_div_eight (n : ℕ) :
    n / 8 + (if n % 8 = 0 then 0 else 1) = (n + 7) / 8 := by
  rcases eq_or_ne (n % 8) 0 with h | h <;> simp only [h, if_true, if_false] <;> omega

/-- C6: `new(width, height)` fails exactly when a dimension is zero, and
otherwise yields a canvas whose packed buffer is `⌈width·height / 8⌉`
zero bytes. -/
theorem EventCanvas_new_spec (w h : ℕ) :
    (EventCanvas.new w h = none ↔ w = 0 ∨ h = 0) ∧
    (∀ c, EventCanvas.new w h = some c →
      c.width = w ∧ c.height = h ∧ c.last = none ∧
      c.buffer = List.replicate ((w * h + 7) / 8) 0) := by
  constructor
  · unfold EventCanvas.new
    rcases Nat.eq_zero_or_pos w with hw | hw
    · simp [hw]
    · rcases Nat.eq_zero_or_pos h with hh | hh
      · simp [hh]
      · simp [Nat.pos_iff_ne_zero.mp hw, Nat.pos_iff_ne_zero.mp hh]
  · intro c hc
    unfold EventCanvas.new at hc
    rcases Nat.eq_zero_or_pos w with hw | hw
    · simp [hw] at hc
    rcases Nat.eq_zero_or_pos h with hh | hh
    · simp [Nat.pos_iff_ne_zero.mp hw, hh] at hc
    simp only [Nat.pos_iff_ne_zero.mp hw, Nat.pos_iff_ne_zero.mp hh, if_false,
      Option.some_inj] at hc
    subst hc
    exact ⟨rfl, rfl, rfl, by simp [ceil_div_eight]⟩

/-- Witness for C6 at `width = 2`, `height = 3`. -/
theorem EventCanvas_new_spec_witness :
    ∃ c, EventCanvas.new 2 3 = some c ∧ c.buffer = List.replicate 1 0 := by
  obtain ⟨-, h⟩ := EventCanvas_new_spec 2 3
  exact ⟨_, rfl, (h _ rfl).2.2.2⟩

theorem getD_map_zero (l : List ℕ) (i : ℕ) :
    (l.map (fun _ => 0)).getD i 0 = 0 := by
  induction l generalizing i with
  | nil => rfl
  | cons a t ih =>
    cases i with
    | zero => rfl
    | succ n =>
      simp only [List.map_cons, List.getD_cons_succ]
      exact ih n

/-- C8: `clear` zeroes every pixel of the packed buffer (so every
in-bounds `get` reads `false`, and out-of-bounds `get` still reads
`none`) but leaves the last-touched-pixel cursor exactly as it was. -/
theorem EventCanvas_clear_spec (c : EventCanvas) :
    c.clear.last = c.last ∧
    ∀ x y, c.clear.get x y = (c.get x y).map (fun _ => false) := by
  refine ⟨rfl, fun x y => ?_⟩
  simp only [EventCanvas.get, EventCanvas.clear, EventCanvas.index_offset]
  by_cases hb : x ≥ c.width ∨ y ≥ c.height
  · simp [hb]
  · simp [hb, getD_map_zero]

set_option maxRecDepth 8192 in
theorem byte_restore : ∀ b < 256, ∀ o < 8,
    b &&& (1 <<< o) = 0 →
    (b ||| (1 <<< o)) &&& (255 ^^^ (1 <<< o)) = b := by decide

theorem set_getD_self (l : List ℕ) (i : ℕ) (h : i < l.length) :
    l.set i (l.getD i 0) = l := by
  induction l generalizing i with
  | nil => simp at h
  | cons a t ih =>
    cases i with
    | zero => rfl
    | succ n =>
      have ht : n < t.length := by simpa using h
      simpa using ih n ht

theorem getD_set_self (l : List ℕ) (i v : ℕ) (h : i < l.length) :
    (l.set i v).getD i 0 = v := by
  induction l generalizing i with
  | nil => simp at h
  | cons a t ih =>
    cases i with
    | zero => rfl
    | succ n =>
      have ht : n < t.length := by simpa using h
      simpa using ih n ht

theorem set_set_self (l : List ℕ) (i u v : ℕ) :
    (l.set i u).set i v = l.set i v := by
  induction l generalizing i with
  | nil => rfl
  | cons a t ih =>
    cases i with
    | zero => rfl
    | succ n => simp [ih n]

theorem set_true_eq (c : EventCanvas) (x y i o : ℕ)
    (hio : c.index_offset x y = some (i, o)) :
    c.set x y true = some { c with buffer := c.buffer.set i ((c.buffer.getD i 0) ||| (1 <<< o)) } := by
  unfold EventCanvas.set
  rw [hio]
  rfl

theorem set_false_eq (c : EventCanvas) (x y i o : ℕ)
    (hio : c.index_offset x y = some (i, o)) :
    c.set x y false = some { c with buffer := c.buffer.set i ((c.buffer.getD i 0) &&& (255 ^^^ (1 <<< o))) } := by
  unfold EventCanvas.set
  rw [hio]
  rfl

/-- C9: on a well-formed canvas, setting an in-bounds bit that was clear
and then clearing it again restores the canvas exactly (so no other bit
changes either), and after `clear` every in-bounds bit reads `false`. -/
theorem EventCanvas_set_restore (c : EventCanvas) (x y : ℕ)
    (hlen : c.buffer.length = (c.width * c.height + 7) / 8)
    (hbytes : ∀ b ∈ c.buffer, b < 256)
    (h : c.get x y = some false) :
    (c.set x y true).bind (fun c1 => c1.set x y false) = some c ∧
    (∀ u v, u < c.width → v < c.height → c.clear.get u v = some false) := by
  have hxy : x < c.width ∧ y < c.height := by
    by_contra hb
    rw [not_and_or, not_lt, not_lt] at hb
    rw [EventCanvas.get, EventCanvas.index_offset, if_pos (by omega)] at h
    simp at h
  obtain ⟨hx, hy⟩ := hxy
  have hio : c.index_offset x y = some ((y * c.width + x) / 8, (y * c.width + x) % 8) := by
    rw [EventCanvas.index_offset, if_neg (by omega)]
  have hpix : y * c.width + x < c.width * c.height := by
    have h1 : (y + 1) * c.width ≤ c.height * c.width :=
      Nat.mul_le_mul_right _ (by omega)
    have h2 : y * c.width + x < (y + 1) * c.width := by
      rw [Nat.succ_mul]; omega
    calc y * c.width + x < (y + 1) * c.width := h2
      _ ≤ c.height * c.width := h1
      _ = c.width * c.height := Nat.mul_comm _ _
  have hi : (y * c.width + x) / 8 < c.buffer.length := by rw [hlen]; omega
  have ho : (y * c.width + x) % 8 < 8 := Nat.mod_lt _ (by norm_num)
  set i := (y * c.width + x) / 8 with hidef
  set o := (y * c.width + x) % 8 with hodef
  have hb256 : c.buffer.getD i 0 < 256 := by
    refine hbytes _ ?_
    rw [List.getD_eq_getElem _ _ hi]
    exact List.getElem_mem _
  have hbit : c.buffer.getD i 0 &&& (1 <<< o) = 0 := by
    rw [EventCanvas.get, hio] at h
    simpa using h
  constructor
  · rw [set_true_eq c x y i o hio, Option.some_bind]
    have hio2 : EventCanvas.index_offset
        { c with buffer := c.buffer.set i ((c.buffer.getD i 0) ||| (1 <<< o)) } x y =
          some (i, o) := hio
    rw [set_false_eq _ x y i o hio2]
    simp only
    rw [getD_set_self _ _ _ (by simpa using hi), set_set_self,
      byte_restore _ hb256 o ho hbit, set_getD_self _ _ hi]
  · intro u v hu hv
    simp only [EventCanvas.get, EventCanvas.clear, EventCanvas.index_offset]
    rw [if_neg (by omega)]
    simp [getD_map_zero]

/-- Witness for C9 on a 2×2 canvas with pixel `(1,1)` initially clear. -/
theorem EventCanvas_set_restore_witness :
    (⟨[0], 2, 2, none⟩ : EventCanvas).get 1 1 = some false ∧
    ((⟨[0], 2, 2, none⟩ : EventCanvas).set 1 1 true).bind
      (fun c1 => c1.set 1 1 false) = some ⟨[0], 2, 2, none⟩ :=
  ⟨by decide,
    (EventCanvas_set_restore ⟨[0], 2, 2, none⟩ 1 1 (by decide) (by decide) (by decide)).1⟩

/-- `f64::clamp(0.0, 1.0)`. -/
def clamp01 (t : ℚ) : ℚ := max 0 (min t 1)

/-- `lerp` from `path.rs`. -/
def lerp (s a b : ℚ) : ℚ := (1 - s) * a + s * b

/-- `EventTrace::get` from `path.rs`, over the ordered sample list.  The
returned list holds the points appended to the output buffer (the Rust
return value is its length).  `t.fract()` on the clamped, nonnegative
parameter is `Int.fract`; `floor`/`ceil` followed by `as usize` is
`Int.toNat` of the floor/ceiling. -/
def EventTrace.get (events : List SEvent) (t : ℚ) : List Point :=
  if events.length = 0 then []
  else if events.length = 1 then
    [⟨(events.getD 0 ⟨0, 0, false⟩).x, (events.getD 0 ⟨0, 0, false⟩).y,
      (events.getD 0 ⟨0, 0, false⟩).touching⟩]
  else
    let t1 := clamp01 t
    let t2 := t1 * ((events.length - 1 : ℕ) : ℚ)
    let f := Int.fract t2
    let a := events.getD (⌊t2⌋).toNat ⟨0, 0, false⟩
    let b := events.getD (⌈t2⌉).toNat ⟨0, 0, false⟩
    [⟨lerp f a.x b.x, lerp f a.y b.y, a.touching⟩]

/-- `BitmapTrace::get` from `path.rs`: `index = (t * count as f64).floor()
as usize` (the float-to-`usize` cast saturates below at zero, hence
`Int.toNat`); in range it yields a touch-then-lift pair, out of range it
yields nothing. -/
def BitmapTrace.get (points : List (ℚ × ℚ)) (t : ℚ) : List Point :=
  let index := (⌊t * (points.length : ℚ)⌋).toNat
  if index < points.length then
    let p := points.getD index (0, 0)
    [⟨p.1, p.2, true⟩, ⟨p.1, p.2, false⟩]
  else []

theorem clamp01_eq {t : ℚ} (h0 : 0 ≤ t) (h1 : t ≤ 1) : clamp01 t = t := by
  unfold clamp01
  rw [min_eq_left h1, max_eq_right h0]

theorem clamp01_nonneg (t : ℚ) : 0 ≤ clamp01 t := le_max_left _ _

theorem clamp01_le_one (t : ℚ) : clamp01 t ≤ 1 :=
  max_le (by norm_num) (min_le_right _ _)

theorem clamp01_idem (t : ℚ) : clamp01 (clamp01 t) = clamp01 t :=
  clamp01_eq (clamp01_nonneg t) (clamp01_le_one t)

/-- C4: behaviour of the sample-trace.  With no samples `get` yields
nothing; with one sample it yields that sample for every `t ∈ [0,1]`;
with `n ≥ 2` samples it yields exactly one point interpolating linearly,
at the fractional part of `t·(n−1)`, between the samples at indices
`⌊t·(n−1)⌋` and `⌈t·(n−1)⌉`, carrying the lower sample's touch flag. -/
theorem EventTrace_get_spec (events : List SEvent) (t : ℚ) :
    (events.length = 0 → EventTrace.get events t = []) ∧
    (∀ e, events = [e] → EventTrace.get events t = [⟨e.x, e.y, e.touching⟩]) ∧
    (2 ≤ events.length → 0 ≤ t → t ≤ 1 →
      ∃ a b, events[(⌊t * ((events.length - 1 : ℕ) : ℚ)⌋).toNat]? = some a ∧
        events[(⌈t * ((events.length - 1 : ℕ) : ℚ)⌉).toNat]? = some b ∧
        EventTrace.get events t =
          [⟨lerp (Int.fract (t * ((events.length - 1 : ℕ) : ℚ))) a.x b.x,
            lerp (Int.fract (t * ((events.length - 1 : ℕ) : ℚ))) a.y b.y,
            a.touching⟩]) := by
  refine ⟨fun hl => ?_, fun e he => ?_, fun h2 h0 h1 => ?_⟩
  · simp [EventTrace.get, hl]
  · subst he
    rfl
  · have hlen : (0 : ℚ) ≤ ((events.length - 1 : ℕ) : ℚ) := Nat.cast_nonneg _
    set u : ℚ := t * ((events.length - 1 : ℕ) : ℚ) with hu
    have hu0 : 0 ≤ u := mul_nonneg h0 hlen
    have hu1 : u ≤ ((events.length - 1 : ℕ) : ℚ) := by
      rw [hu]
      exact mul_le_of_le_one_left hlen h1
    have hfl0 : 0 ≤ ⌊u⌋ := Int.floor_nonneg.mpr hu0
    have hceil : ⌈u⌉ ≤ ((events.length - 1 : ℕ) : ℤ) := by
      apply Int.ceil_le.mpr
      simpa using hu1
    have hfloor_le : ⌊u⌋ ≤ ⌈u⌉ := Int.floor_le_ceil u
    have hiN : (⌊u⌋).toNat < events.length := by omega
    have hjN : (⌈u⌉).toNat < events.length := by omega
    refine ⟨events.getD (⌊u⌋).toNat ⟨0, 0, false⟩, events.getD (⌈u⌉).toNat ⟨0, 0, false⟩,
      ?_, ?_, ?_⟩
    · rw [List.getElem?_eq_getElem hiN, List.getD_eq_getElem _ _ hiN]
    · rw [List.getElem?_eq_getElem hjN, List.getD_eq_getElem _ _ hjN]
    · simp only [EventTrace.get, if_neg (by omega : ¬ events.length = 0),
        if_neg (by omega : ¬ events.length = 1), clamp01_eq h0 h1]

/-- Witness for C4: the single-sample trace at `t = 1/2`. -/
theorem EventTrace_get_spec_witness :
    EventTrace.get [⟨1/4, 3/4, true⟩] (1/2) = [⟨1/4, 3/4, true⟩] :=
  (EventTrace_get_spec [⟨1/4, 3/4, true⟩] (1/2)).2.1 _ rfl

/-- C7: for both trace variants, `get` at an arbitrary parameter agrees
with `get` at the parameter clamped to `[0,1]` (the sample-trace clamps
explicitly; the image-trace's floor-then-`usize` cast saturates to the
same behaviour). -/
theorem trace_get_clamp (events : List SEvent) (points : List (ℚ × ℚ)) (t : ℚ) :
    EventTrace.get events t = EventTrace.get events (clamp01 t) ∧
    BitmapTrace.get points t = BitmapTrace.get points (clamp01 t) := by
  constructor
  · by_cases h0 : events.length = 0
    · simp [EventTrace.get, h0]
    · by_cases h1 : events.length = 1
      · simp [EventTrace.get, h0, h1]
      · simp only [EventTrace.get, if_neg h0, if_neg h1, clamp01_idem]
  · rcases lt_or_le t 0 with hneg | h0
    · have hc : clamp01 t = 0 := by
        unfold clamp01
        rw [min_eq_left (by linarith), max_eq_left (by linarith)]
      rw [hc]
      have hmul : t * (points.length : ℚ) ≤ 0 := by
        have := mul_le_mul_of_nonneg_right hneg.le
          (Nat.cast_nonneg (α := ℚ) points.length)
        simpa using this
      have hidx : (⌊t * (points.length : ℚ)⌋).toNat = 0 :=
        Int.toNat_of_nonpos (Int.floor_nonpos hmul)
      simp [BitmapTrace.get, hidx]
    · rcases le_or_lt t 1 with h1 | hgt
      · rw [clamp01_eq h0 h1]
      · have hc : clamp01 t = 1 := by
          unfold clamp01
          rw [min_eq_right hgt.le, max_eq_right zero_le_one]
        rw [hc]
        have hR : (⌊(1 : ℚ) * (points.length : ℚ)⌋).toNat = points.length := by
          rw [one_mul]
          simp
        have hL : points.length ≤ (⌊t * (points.length : ℚ)⌋).toNat := by
          rcases Nat.eq_zero_or_pos points.length with hl0 | hlpos
          · omega
          · have hq : ((points.length : ℤ) : ℚ) ≤ t * (points.length : ℚ) := by
              have h2 : (1 : ℚ) * (points.length : ℚ) ≤ t * (points.length : ℚ) :=
                mul_le_mul_of_nonneg_right hgt.le (Nat.cast_nonneg _)
              push_cast
              linarith
            have := Int.le_floor.mpr hq
            omega
        simp only [BitmapTrace.get, hR]
        rw [if_neg (by omega), if_neg (by omega)]

/-- Counterexample to C5 as stated: with one collected ink pixel and
`t = -1`, `⌊t · count⌋ = -1` is not a valid index, yet `get` appends two
points (the Rust `as usize` cast saturates `-1` to index `0`) instead of
appending nothing and returning 0. -/
theorem BitmapTrace_get_counterexample :
    ⌊(-1 : ℚ) * (([((1 : ℚ)/4, (3 : ℚ)/4)] : List (ℚ × ℚ)).length : ℚ)⌋ < 0 ∧
    BitmapTrace.get [(1/4, 3/4)] (-1) =
      [⟨1/4, 3/4, true⟩, ⟨1/4, 3/4, false⟩] := by
  constructor
  · norm_num
  · simp only [BitmapTrace.get]
    norm_num

/-- C5 (amended): with `index = (⌊t·count⌋).toNat` — the saturating
`as usize` cast of the mathematical floor — `get` appends exactly the
touch-then-lift pair at `points[index]` when `index < count`, and
appends nothing when `index ≥ count` (so for `⌊t·count⌋ < 0` the index
saturates to `0` rather than being out of range). -/
theorem BitmapTrace_get_spec (points : List (ℚ × ℚ)) (t : ℚ) :
    ((⌊t * (points.length : ℚ)⌋).toNat < points.length →
      ∃ p, points[(⌊t * (points.length : ℚ)⌋).toNat]? = some p ∧
        BitmapTrace.get points t = [⟨p.1, p.2, true⟩, ⟨p.1, p.2, false⟩]) ∧
    (points.length ≤ (⌊t * (points.length : ℚ)⌋).toNat →
      BitmapTrace.get points t = []) := by
  constructor
  · intro h
    refine ⟨points.getD (⌊t * (points.length : ℚ)⌋).toNat (0, 0), ?_, ?_⟩
    · rw [List.getElem?_eq_getElem h, List.getD_eq_getElem _ _ h]
    · simp only [BitmapTrace.get, if_pos h]
  · intro h
    simp only [BitmapTrace.get, if_neg (not_lt.mpr h)]

/-- Witness for C5 (amended) at `t = 0` over one collected pixel. -/
theorem BitmapTrace_get_spec_witness :
    (⌊(0 : ℚ) * (([((1 : ℚ)/4, (3 : ℚ)/4)] : List (ℚ × ℚ)).length : ℚ)⌋).toNat < 1 ∧
    ∃ p, ([((1 : ℚ)/4, (3 : ℚ)/4)] : List (ℚ × ℚ))[(⌊(0 : ℚ) * (([((1 : ℚ)/4, (3 : ℚ)/4)] : List (ℚ × ℚ)).length : ℚ)⌋).toNat]? = some p ∧
      BitmapTrace.get [(1/4, 3/4)] 0 = [⟨p.1, p.2, true⟩, ⟨p.1, p.2, false⟩] :=
  ⟨by norm_num, (BitmapTrace_get_spec [(1/4, 3/4)] 0).1 (by norm_num)⟩

/-- The button part of the `dwFlags` of one emitted `INPUT` structure
(`MOUSEEVENTF_LEFTDOWN`, `MOUSEEVENTF_LEFTUP`, or neither). -/
inductive ButtonAct
  | down
  | up
  | nobutton
deriving DecidableEq

/-- One synthetic `SendInput` mouse action: absolute device coordinates
and flags (`move` models `MOUSEEVENTF_ABSOLUTE | MOUSEEVENTF_MOVE` being
present). -/
structure MouseAction where
  dx : ℤ
  dy : ℤ
  move : Bool
  button : ButtonAct
deriving DecidableEq

/-- `ScreenArea` from `robot.rs`. -/
structure ScreenArea where
  x : ℤ
  y : ℤ
  width : ℕ
  height : ℕ
deriving DecidableEq

/-- Truncation toward zero, the integral part of `as i32` on an `f64`. -/
def truncQ (q : ℚ) : ℤ := if 0 ≤ q then ⌊q⌋ else ⌈q⌉

/-- `as i32` on an `f64`: truncating, saturating cast. -/
def i32_of_f64 (q : ℚ) : ℤ := min (max (truncQ q) (-(2 ^ 31))) (2 ^ 31 - 1)

/-- `Playback::map`: normalized point to absolute pointer coordinates.
`monW`/`monH` stand for `nwg::Monitor::width()`/`height()`, external
inputs in the Rust code; `width.saturating_sub(1)` is `ℕ` subtraction. -/
def Playback.map (monW monH : ℚ) (target : ScreenArea) (p : Point) : ℤ × ℤ :=
  let x := p.x * ((target.width - 1 : ℕ) : ℚ) + (target.x : ℚ)
  let y := p.y * ((target.height - 1 : ℕ) : ℚ) + (target.y : ℚ)
  let n : ℚ := (256 * 256 - 1 : ℚ)
  (i32_of_f64 (x / monW * n), i32_of_f64 (y / monH * n))

/-- One pass of the inner `for point in buffer.drain(..)` loop body:
build the `INPUT` for this point and update `pressed`. -/
def emitPoint (monW monH : ℚ) (target : ScreenArea) (pressed : Bool) (p : Point) :
    MouseAction × Bool :=
  let c := Playback.map monW monH target p
  if !pressed && p.touch then (⟨c.1, c.2, true, ButtonAct.down⟩, true)
  else if pressed && !p.touch then (⟨c.1, c.2, true, ButtonAct.up⟩, false)
  else (⟨c.1, c.2, true, ButtonAct.nobutton⟩, pressed)

/-- The inner `for point in buffer.drain(..)` loop: emit one action per
point; `x += dx` runs once per *point* (not per outer step). -/
def emitPoints (monW monH : ℚ) (target : ScreenArea) (dx : ℚ) :
    List Point → ℚ → Bool → List MouseAction × ℚ × Bool
  | [], x, pressed => ([], x, pressed)
  | p :: ps, x, pressed =>
    let ap := emitPoint monW monH target pressed p
    let rest := emitPoints monW monH target dx ps (x + dx) ap.2
    (ap.1 :: rest.1, rest.2.1, rest.2.2)

/-- The `for _ in 0..steps` loop of `play_and_notify`: returns the list
of parameters passed to `Trace::get` (one per iteration, including the
iteration that sees zero points and breaks), the emitted actions, and
the final parameter and `pressed` flag. -/
def runSteps (get : ℚ → List Point) (monW monH : ℚ) (target : ScreenArea) (dx : ℚ) :
    ℕ → ℚ → Bool → List ℚ × List MouseAction × ℚ × Bool
  | 0, x, pressed => ([], [], x, pressed)
  | n + 1, x, pressed =>
    let pts := get x
    if pts.length = 0 then ([x], [], x, pressed)
    else
      let inner := emitPoints monW monH target dx pts x pressed
      let rest := runSteps get monW monH target dx n inner.2.1 inner.2.2
      (x :: rest.1, inner.1 ++ rest.2.1, rest.2.2)

/-- The whole body of the playback thread in `play_and_notify`:
`dt`-pacing aside (wall-clock time is not modelled), runs the step loop
from `x = 0`, `pressed = false` with `dx = 1/steps`, then
unconditionally emits the final `MOUSEEVENTF_LEFTUP`-only action. -/
def Playback.run (get : ℚ → List Point) (monW monH : ℚ) (target : ScreenArea)
    (steps : ℕ) : List ℚ × List MouseAction :=
  let dx : ℚ := 1 / (steps : ℚ)
  let r := runSteps get monW monH target dx steps 0 false
  (r.1, r.2.1 ++ [⟨0, 0, false, ButtonAct.up⟩])

/-- Observable outcome of one `play_and_notify` call that was admitted by
the `MOUSE_LOCK` test-and-set. -/
structure PlayResult where
  samples : List ℚ
  actions : List MouseAction
  lockHeldDuringRun : Bool
  lockOnFinish : Bool
  notified : Bool
deriving DecidableEq

/-- `Playback::play_and_notify`: `MOUSE_LOCK.fetch_or(true)` returning
`true` means another playback is running and the call panics (`none`);
otherwise the flag is held for the whole run, cleared at the end, and
the completion notice is sent. -/
def Playback.play_and_notify (lock : Bool) (get : ℚ → List Point)
    (monW monH : ℚ) (target : ScreenArea) (steps : ℕ) : Option PlayResult :=
  if lock then none
  else
    let r := Playback.run get monW monH target steps
    some ⟨r.1, r.2, true, false, true⟩

/-- C2: however the step loop terminates, the emitted action sequence is
nonempty and its last element is the unconditional button-up (no move
flag, `MOUSEEVENTF_LEFTUP`) appended after the loop. -/
theorem playback_final_button_up (get : ℚ → List Point) (monW monH : ℚ)
    (target : ScreenArea) (steps : ℕ) :
    (Playback.run get monW monH target steps).2 ≠ [] ∧
    (Playback.run get monW monH target steps).2.getLast? =
      some ⟨0, 0, false, ButtonAct.up⟩ := by
  unfold Playback.run
  constructor
  · simp
  · exact List.getLast?_concat _

/-- C3: calling `play_and_notify` with the mouse lock already set is
fatal (models the panic); with the lock clear it runs, holds the lock
during the run, clears it on finishing, and notifies the caller. -/
theorem play_and_notify_mutex (get : ℚ → List Point) (monW monH : ℚ)
    (target : ScreenArea) (steps : ℕ) :
    Playback.play_and_notify true get monW monH target steps = none ∧
    ∃ r, Playback.play_and_notify false get monW monH target steps = some r ∧
      r.lockHeldDuringRun = true ∧ r.lockOnFinish = false ∧ r.notified = true :=
  ⟨rfl, ⟨_, rfl, rfl, rfl, rfl⟩⟩

theorem emitPoints_x (monW monH : ℚ) (target : ScreenArea) (dx : ℚ)
    (ps : List Point) (x : ℚ) (pressed : Bool) :
    (emitPoints monW monH target dx ps x pressed).2.1 = x + (ps.length : ℚ) * dx := by
  induction ps generalizing x pressed with
  | nil => simp [emitPoints]
  | cons p ps ih =>
    simp only [emitPoints, ih, List.length_cons]
    push_cast
    ring

theorem runSteps_head (get : ℚ → List Point) (monW monH : ℚ) (target : ScreenArea)
    (dx : ℚ) (n : ℕ) (x : ℚ) (pressed : Bool) :
    (runSteps get monW monH target dx n x pressed).1.head? =
      if n = 0 then none else some x := by
  cases n with
  | zero => rfl
  | succ n =>
    simp only [runSteps]
    by_cases h : (get x).length = 0
    · simp [h]
    · simp [h]

theorem runSteps_chain (get : ℚ → List Point) (monW monH : ℚ) (target : ScreenArea)
    (dx : ℚ) :
    ∀ (n : ℕ) (x : ℚ) (pressed : Bool),
      List.Chain' (fun u v => v = u + ((get u).length : ℚ) * dx)
        (runSteps get monW monH target dx n x pressed).1 := by
  intro n
  induction n with
  | zero => intro x pressed; simp [runSteps]
  | succ n ih =>
    intro x pressed
    by_cases h : (get x).length = 0
    · simp [runSteps, h]
    · simp only [runSteps, if_neg h]
      rw [List.chain'_cons']
      refine ⟨?_, ih _ _⟩
      intro y hy
      rw [runSteps_head] at hy
      cases n with
      | zero => simp at hy
      | succ m =>
        simp only [Nat.succ_ne_zero, if_false, Option.mem_some_iff] at hy
        subst hy
        exact (emitPoints_x monW monH target dx (get x) x pressed).symm ▸ rfl

/-- Counterexample to C1 as stated: a trace that yields two points per
call (as the image-trace does) advances the parameter by `2/steps` per
iteration, because `x += dx` runs once per emitted point.  With
`steps = 2` the second iteration samples the trace at `1`, not at
`1/2 = 1/steps`. -/
theorem playback_step_param_counterexample :
    (Playback.run (fun _ => [⟨0, 0, true⟩, ⟨0, 0, true⟩]) 1 1 ⟨0, 0, 1, 1⟩ 2).1 = [0, 1] ∧
    (1 : ℚ) ≠ 1 / 2 := by
  constructor
  · simp only [Playback.run, runSteps, emitPoints, emitPoint, Playback.map]
    norm_num
  · norm_num

/-- C1 (amended): the first Running iteration samples the trace at
`t = 0`, and between consecutive iterations the parameter grows by
`m/steps` where `m` is the number of points the trace returned at the
previous sample — which is `1/steps` exactly when the trace yields one
point per call, as the sample-trace does. -/
theorem playback_samples_spec (get : ℚ → List Point) (monW monH : ℚ)
    (target : ScreenArea) (steps : ℕ) :
    (Playback.run get monW monH target steps).1.head? =
      (if steps = 0 then none else some 0) ∧
    List.Chain' (fun u v => v = u + ((get u).length : ℚ) / (steps : ℚ))
      (Playback.run get monW monH target steps).1 := by
  constructor
  · exact runSteps_head get monW monH target _ steps 0 false
  · have h := runSteps_chain get monW monH target (1 / (steps : ℚ)) steps 0 false
    refine List.Chain'.imp ?_ h
    intro a b hab
    rw [hab, mul_one_div]

/-- The `for ax in 0..dx.abs()` loop of `EventCanvas::process` (tracing
along the X axis): `remaining` iterations left, `ax` the loop counter,
`iy` the accumulated Y coordinate; the X coordinate of each intermediate
pixel is an `i64` cast to `u32` (wrapping), the rounded `iy` is an `f64`
cast to `u32` (saturating). -/
def EventCanvas.traceAlongX (lx : ℤ) (sgn : ℤ) (slope : ℚ) :
    ℕ → ℕ → ℚ → EventCanvas → Option EventCanvas
  | 0, _, _, c => some c
  | remaining + 1, ax, iy, c => do
    let x : ℤ := lx + (ax : ℤ) * sgn
    let y : ℤ := rustRound iy
    let c' ← c.set (u32_of_i64 x) (u32_of_f64 y) true
    EventCanvas.traceAlongX lx sgn slope remaining (ax + 1) (iy + slope * (sgn : ℚ)) c'

/-- The `for ay in 0..dy.abs()` loop of `EventCanvas::process` (tracing
along the Y axis), symmetric to `traceAlongX`. -/
def EventCanvas.traceAlongY (ly : ℤ) (sgn : ℤ) (slope : ℚ) :
    ℕ → ℕ → ℚ → EventCanvas → Option EventCanvas
  | 0, _, _, c => some c
  | remaining + 1, ay, ix, c => do
    let x : ℤ := rustRound ix
    let y : ℤ := ly + (ay : ℤ) * sgn
    let c' ← c.set (u32_of_f64 x) (u32_of_i64 y) true
    EventCanvas.traceAlongY ly sgn slope remaining (ay + 1) (ix + slope * (sgn : ℚ)) c'

/-- The `if let Some((last_x, last_y)) = self.last` block of
`EventCanvas::process`: trace a digital line from the previous cursor
to `(px, py)` (exclusive), choosing the driving axis by
`dx.abs() > dy.abs()`. -/
def EventCanvas.lineFrom (c1 : EventCanvas) (px py : ℕ) : Option EventCanvas :=
  match c1.last with
  | none => some c1
  | some (lastx, lasty) =>
    let dx : ℤ := (px : ℤ) - (lastx : ℤ)
    let dy : ℤ := (py : ℤ) - (lasty : ℤ)
    if dx ≠ 0 ∨ dy ≠ 0 then
      if dy.natAbs < dx.natAbs then
        EventCanvas.traceAlongX lastx dx.sign ((dy : ℚ) / (dx : ℚ)) dx.natAbs 0 (lasty : ℚ) c1
      else
        EventCanvas.traceAlongY lasty dy.sign ((dx : ℚ) / (dy : ℚ)) dy.natAbs 0 (lastx : ℚ) c1
    else some c1

/-- `EventCanvas::process`: on a touching event, map the normalized
coordinates to the endpoint pixel (`round(x·(width−1))`, saturating
`f64 → u32` cast), set it, trace a digital line from the previous
cursor if one exists, and update the cursor; on a non-touching event
just drop the cursor.  `width - 1` is `u32` subtraction on a canvas of
positive width. -/
def EventCanvas.process (c : EventCanvas) (event : SEvent) : Option EventCanvas :=
  if event.touching then
    let px := u32_of_f64 (rustRound (((c.width - 1 : ℕ) : ℚ) * event.x))
    let py := u32_of_f64 (rustRound (((c.height - 1 : ℕ) : ℚ) * event.y))
    (c.set px py true).bind (fun c1 =>
      (c1.lineFrom px py).map (fun c2 => { c2 with last := some (px, py) }))
  else
    some { c with last := none }

theorem rustRound_nonneg {q : ℚ} (h : 0 ≤ q) : 0 ≤ rustRound q := by
  unfold rustRound
  rw [if_pos h]
  exact Int.floor_nonneg.mpr (by linarith)

theorem rustRound_le {q : ℚ} {n : ℤ} (h0 : 0 ≤ q) (h : q ≤ (n : ℚ)) : rustRound q ≤ n := by
  unfold rustRound
  rw [if_pos h0]
  have h1 : ⌊q + 1 / 2⌋ ≤ ⌊(n : ℚ) + 1 / 2⌋ := Int.floor_le_floor (by linarith)
  have h2 : ⌊(n : ℚ) + 1 / 2⌋ = n := by
    rw [add_comm, Int.floor_add_int]
    norm_num
  omega

theorem u32_of_i64_lt {z : ℤ} {w : ℕ} (h0 : 0 ≤ z) (h1 : z < (w : ℤ))
    (hw : w ≤ 2 ^ 32) : u32_of_i64 z < w := by
  unfold u32_of_i64
  rw [Int.emod_eq_of_lt h0 (by omega)]
  omega

theorem u32_of_f64_lt {z : ℤ} {n : ℕ} (h0 : 0 ≤ z) (h1 : z < (n : ℤ)) :
    u32_of_f64 z < n := by
  unfold u32_of_f64
  exact lt_of_le_of_lt (Nat.min_le_left _ _) (by omega)

theorem set_some (c : EventCanvas) (x y : ℕ) (v : Bool)
    (hx : x < c.width) (hy : y < c.height) :
    ∃ c', c.set x y v = some c' ∧ c'.width = c.width ∧ c'.height = c.height ∧
      c'.last = c.last := by
  unfold EventCanvas.set EventCanvas.index_offset
  rw [if_neg (by omega)]
  exact ⟨_, rfl, rfl, rfl, rfl⟩

theorem slope_sign_eq (dx dy : ℤ) (hdx : dx ≠ 0) :
    ((dy : ℚ) / (dx : ℚ)) * ((dx.sign : ℤ) : ℚ) = (dy : ℚ) / ((dx.natAbs : ℕ) : ℚ) := by
  rcases lt_or_gt_of_ne hdx with hneg | hpos
  · have h1 : ((dx.natAbs : ℕ) : ℤ) = -dx := by omega
    have h2 : ((dx.natAbs : ℕ) : ℚ) = -(dx : ℚ) := by
      have h3 := congrArg (fun z : ℤ => (z : ℚ)) h1
      push_cast at h3
      rw [Nat.cast_natAbs, Int.cast_abs]
      exact h3
    rw [Int.sign_eq_neg_one_iff_neg.mpr hneg, h2, div_neg]
    push_cast
    ring
  · have h1 : ((dx.natAbs : ℕ) : ℤ) = dx := by omega
    have h2 : ((dx.natAbs : ℕ) : ℚ) = (dx : ℚ) := by
      have h3 := congrArg (fun z : ℤ => (z : ℚ)) h1
      push_cast at h3
      rw [Nat.cast_natAbs, Int.cast_abs]
      exact h3
    rw [Int.sign_eq_one_iff_pos.mpr hpos, h2]
    push_cast
    ring

theorem traceAlongX_safe (w h : ℕ) (hw32 : w ≤ 2 ^ 32)
    (lx0 ly0 px0 py0 : ℕ)
    (hlx : lx0 < w) (hpx : px0 < w) (hly : ly0 < h) (hpy : py0 < h)
    (dx dy : ℤ) (hdx : dx = (px0 : ℤ) - (lx0 : ℤ)) (hdy : dy = (py0 : ℤ) - (ly0 : ℤ))
    (hbr : dy.natAbs < dx.natAbs) :
    ∀ (remaining ax : ℕ) (iy : ℚ) (c : EventCanvas),
      c.width = w → c.height = h →
      remaining + ax = dx.natAbs →
      iy = (ly0 : ℚ) + (ax : ℚ) * ((dy : ℚ) / ((dx.natAbs : ℕ) : ℚ)) →
      ∃ c', EventCanvas.traceAlongX (lx0 : ℤ) dx.sign ((dy : ℚ) / (dx : ℚ)) remaining ax iy c
          = some c' ∧ c'.width = w ∧ c'.height = h ∧ c'.last = c.last := by
  have hdx0 : dx ≠ 0 := by omega
  intro remaining
  induction remaining with
  | zero =>
    intro ax iy c hw hh _ _
    exact ⟨c, rfl, hw, hh, rfl⟩
  | succ n ih =>
    intro ax iy c hw hh hcnt hiy
    have hax : ax < dx.natAbs := by omega
    have hzb : 0 ≤ (lx0 : ℤ) + (ax : ℤ) * dx.sign ∧
        (lx0 : ℤ) + (ax : ℤ) * dx.sign < (w : ℤ) := by
      rcases lt_or_gt_of_ne hdx0 with hneg | hpos
      · rw [Int.sign_eq_neg_one_iff_neg.mpr hneg]
        constructor <;> omega
      · rw [Int.sign_eq_one_iff_pos.mpr hpos]
        constructor <;> omega
    have hdxQ : (0 : ℚ) < ((dx.natAbs : ℕ) : ℚ) := by
      have h1 : 0 < dx.natAbs := by omega
      exact_mod_cast h1
    have haxQ : (0 : ℚ) ≤ (ax : ℚ) := Nat.cast_nonneg _
    have haxle : (ax : ℚ) ≤ ((dx.natAbs : ℕ) : ℚ) := by exact_mod_cast hax.le
    have hqb : 0 ≤ iy ∧ iy ≤ (h : ℚ) - 1 := by
      rw [hiy]
      have hly0 : (0 : ℚ) ≤ (ly0 : ℚ) := Nat.cast_nonneg _
      have hlyh : (ly0 : ℚ) + 1 ≤ (h : ℚ) := by exact_mod_cast Nat.succ_le_of_lt hly
      have hpyh : (py0 : ℚ) + 1 ≤ (h : ℚ) := by exact_mod_cast Nat.succ_le_of_lt hpy
      have hpy0 : (0 : ℚ) ≤ (py0 : ℚ) := Nat.cast_nonneg _
      have hsum : (ly0 : ℚ) + (dy : ℚ) = (py0 : ℚ) := by
        rw [hdy]; push_cast; ring
      rcases le_or_lt 0 dy with hdy0 | hdy0
      · have hdyQ0 : (0 : ℚ) ≤ (dy : ℚ) := by exact_mod_cast hdy0
        have h1 : 0 ≤ (ax : ℚ) * ((dy : ℚ) / ((dx.natAbs : ℕ) : ℚ)) :=
          mul_nonneg haxQ (div_nonneg hdyQ0 hdxQ.le)
        have h2 : (ax : ℚ) * ((dy : ℚ) / ((dx.natAbs : ℕ) : ℚ)) ≤ (dy : ℚ) := by
          rw [← mul_div_assoc, div_le_iff₀ hdxQ]
          calc (ax : ℚ) * (dy : ℚ) ≤ ((dx.natAbs : ℕ) : ℚ) * (dy : ℚ) :=
                mul_le_mul_of_nonneg_right haxle hdyQ0
            _ = (dy : ℚ) * ((dx.natAbs : ℕ) : ℚ) := mul_comm _ _
        constructor <;> linarith
      · have hdyQ0 : (dy : ℚ) < 0 := by exact_mod_cast hdy0
        have h1 : (ax : ℚ) * ((dy : ℚ) / ((dx.natAbs : ℕ) : ℚ)) ≤ 0 :=
          mul_nonpos_of_nonneg_of_nonpos haxQ
            (div_nonpos_of_nonpos_of_nonneg hdyQ0.le hdxQ.le)
        have h2 : (dy : ℚ) ≤ (ax : ℚ) * ((dy : ℚ) / ((dx.natAbs : ℕ) : ℚ)) := by
          rw [← mul_div_assoc, le_div_iff₀ hdxQ]
          calc (dy : ℚ) * ((dx.natAbs : ℕ) : ℚ)
              = ((dx.natAbs : ℕ) : ℚ) * (dy : ℚ) := mul_comm _ _
            _ ≤ (ax : ℚ) * (dy : ℚ) := mul_le_mul_of_nonpos_right haxle hdyQ0.le
        constructor <;> linarith
    obtain ⟨hq0, hq1⟩ := hqb
    have hry0 : 0 ≤ rustRound iy := rustRound_nonneg hq0
    have hry1 : rustRound iy ≤ (h : ℤ) - 1 := rustRound_le hq0 (by push_cast; linarith)
    have hpxlt : u32_of_i64 ((lx0 : ℤ) + (ax : ℤ) * dx.sign) < c.width := by
      rw [hw]
      exact u32_of_i64_lt hzb.1 hzb.2 hw32
    have hpylt : u32_of_f64 (rustRound iy) < c.height := by
      rw [hh]
      exact u32_of_f64_lt hry0 (by omega)
    obtain ⟨c1, hc1, hcw, hch, hcl⟩ := set_some c _ _ true hpxlt hpylt
    obtain ⟨c2, hrec, hw2, hh2, hl2⟩ :=
      ih (ax + 1) (iy + ((dy : ℚ) / (dx : ℚ)) * ((dx.sign : ℤ) : ℚ)) c1
        (hcw.trans hw) (hch.trans hh) (by omega)
        (by rw [slope_sign_eq dx dy hdx0, hiy]; push_cast; ring)
    refine ⟨c2, ?_, hw2, hh2, hl2.trans hcl⟩
    simp only [EventCanvas.traceAlongX]
    rw [hc1]
    exact hrec

theorem traceAlongY_safe (w h : ℕ) (hh32 : h ≤ 2 ^ 32)
    (lx0 ly0 px0 py0 : ℕ)
    (hlx : lx0 < w) (hpx : px0 < w) (hly : ly0 < h) (hpy : py0 < h)
    (dx dy : ℤ) (hdx : dx = (px0 : ℤ) - (lx0 : ℤ)) (hdy : dy = (py0 : ℤ) - (ly0 : ℤ))
    (hdy0 : dy ≠ 0) (_hbr : dx.natAbs ≤ dy.natAbs) :
    ∀ (remaining ay : ℕ) (ix : ℚ) (c : EventCanvas),
      c.width = w → c.height = h →
      remaining + ay = dy.natAbs →
      ix = (lx0 : ℚ) + (ay : ℚ) * ((dx : ℚ) / ((dy.natAbs : ℕ) : ℚ)) →
      ∃ c', EventCanvas.traceAlongY (ly0 : ℤ) dy.sign ((dx : ℚ) / (dy : ℚ)) remaining ay ix c
          = some c' ∧ c'.width = w ∧ c'.height = h ∧ c'.last = c.last := by
  intro remaining
  induction remaining with
  | zero =>
    intro ay ix c hw hh _ _
    exact ⟨c, rfl, hw, hh, rfl⟩
  | succ n ih =>
    intro ay ix c hw hh hcnt hix
    have hay : ay < dy.natAbs := by omega
    have hzb : 0 ≤ (ly0 : ℤ) + (ay : ℤ) * dy.sign ∧
        (ly0 : ℤ) + (ay : ℤ) * dy.sign < (h : ℤ) := by
      rcases lt_or_gt_of_ne hdy0 with hneg | hpos
      · rw [Int.sign_eq_neg_one_iff_neg.mpr hneg]
        constructor <;> omega
      · rw [Int.sign_eq_one_iff_pos.mpr hpos]
        constructor <;> omega
    have hdyQ : (0 : ℚ) < ((dy.natAbs : ℕ) : ℚ) := by
      have h1 : 0 < dy.natAbs := by omega
      exact_mod_cast h1
    have hayQ : (0 : ℚ) ≤ (ay : ℚ) := Nat.cast_nonneg _
    have hayle : (ay : ℚ) ≤ ((dy.natAbs : ℕ) : ℚ) := by exact_mod_cast hay.le
    have hqb : 0 ≤ ix ∧ ix ≤ (w : ℚ) - 1 := by
      rw [hix]
      have hlx0 : (0 : ℚ) ≤ (lx0 : ℚ) := Nat.cast_nonneg _
      have hlxw : (lx0 : ℚ) + 1 ≤ (w : ℚ) := by exact_mod_cast Nat.succ_le_of_lt hlx
      have hpxw : (px0 : ℚ) + 1 ≤ (w : ℚ) := by exact_mod_cast Nat.succ_le_of_lt hpx
      have hpx0 : (0 : ℚ) ≤ (px0 : ℚ) := Nat.cast_nonneg _
      have hsum : (lx0 : ℚ) + (dx : ℚ) = (px0 : ℚ) := by
        rw [hdx]; push_cast; ring
      rcases le_or_lt 0 dx with hdxx | hdxx
      · have hdxQ0 : (0 : ℚ) ≤ (dx : ℚ) := by exact_mod_cast hdxx
        have h1 : 0 ≤ (ay : ℚ) * ((dx : ℚ) / ((dy.natAbs : ℕ) : ℚ)) :=
          mul_nonneg hayQ (div_nonneg hdxQ0 hdyQ.le)
        have h2 : (ay : ℚ) * ((dx : ℚ) / ((dy.natAbs : ℕ) : ℚ)) ≤ (dx : ℚ) := by
          rw [← mul_div_assoc, div_le_iff₀ hdyQ]
          calc (ay : ℚ) * (dx : ℚ) ≤ ((dy.natAbs : ℕ) : ℚ) * (dx : ℚ) :=
                mul_le_mul_of_nonneg_right hayle hdxQ0
            _ = (dx : ℚ) * ((dy.natAbs : ℕ) : ℚ) := mul_comm _ _
        constructor <;> linarith
      · have hdxQ0 : (dx : ℚ) < 0 := by exact_mod_cast hdxx
        have h1 : (ay : ℚ) * ((dx : ℚ) / ((dy.natAbs : ℕ) : ℚ)) ≤ 0 :=
          mul_nonpos_of_nonneg_of_nonpos hayQ
            (div_nonpos_of_nonpos_of_nonneg hdxQ0.le hdyQ.le)
        have h2 : (dx : ℚ) ≤ (ay : ℚ) * ((dx : ℚ) / ((dy.natAbs : ℕ) : ℚ)) := by
          rw [← mul_div_assoc, le_div_iff₀ hdyQ]
          calc (dx : ℚ) * ((dy.natAbs : ℕ) : ℚ)
              = ((dy.natAbs : ℕ) : ℚ) * (dx : ℚ) := mul_comm _ _
            _ ≤ (ay : ℚ) * (dx : ℚ) := mul_le_mul_of_nonpos_right hayle hdxQ0.le
        constructor <;> linarith
    obtain ⟨hq0, hq1⟩ := hqb
    have hrx0 : 0 ≤ rustRound ix := rustRound_nonneg hq0
    have hrx1 : rustRound ix ≤ (w : ℤ) - 1 := rustRound_le hq0 (by push_cast; linarith)
    have hpxlt : u32_of_f64 (rustRound ix) < c.width := by
      rw [hw]
      exact u32_of_f64_lt hrx0 (by omega)
    have hpylt : u32_of_i64 ((ly0 : ℤ) + (ay : ℤ) * dy.sign) < c.height := by
      rw [hh]
      exact u32_of_i64_lt hzb.1 hzb.2 hh32
    obtain ⟨c1, hc1, hcw, hch, hcl⟩ := set_some c _ _ true hpxlt hpylt
    obtain ⟨c2, hrec, hw2, hh2, hl2⟩ :=
      ih (ay + 1) (ix + ((dx : ℚ) / (dy : ℚ)) * ((dy.sign : ℤ) : ℚ)) c1
        (hcw.trans hw) (hch.trans hh) (by omega)
        (by rw [slope_sign_eq dy dx hdy0, hix]; push_cast; ring)
    refine ⟨c2, ?_, hw2, hh2, hl2.trans hcl⟩
    simp only [EventCanvas.traceAlongY]
    rw [hc1]
    exact hrec

theorem lineFrom_safe (c1 : EventCanvas) (px py : ℕ)
    (hw32 : c1.width ≤ 2 ^ 32) (hh32 : c1.height ≤ 2 ^ 32)
    (hpx : px < c1.width) (hpy : py < c1.height)
    (hlast : ∀ p, c1.last = some p → p.1 < c1.width ∧ p.2 < c1.height) :
    ∃ c2, c1.lineFrom px py = some c2 ∧ c2.width = c1.width ∧ c2.height = c1.height := by
  cases hcl : c1.last with
  | none =>
    refine ⟨c1, ?_, rfl, rfl⟩
    unfold EventCanvas.lineFrom
    rw [hcl]
  | some p =>
    obtain ⟨lx0, ly0⟩ := p
    obtain ⟨hlx0, hly0⟩ := hlast (lx0, ly0) hcl
    by_cases hzero : ((px : ℤ) - (lx0 : ℤ) ≠ 0 ∨ (py : ℤ) - (ly0 : ℤ) ≠ 0)
    · by_cases hbr : ((py : ℤ) - (ly0 : ℤ)).natAbs < ((px : ℤ) - (lx0 : ℤ)).natAbs
      · obtain ⟨c2, htr, hw2, hh2, hl2⟩ :=
          traceAlongX_safe c1.width c1.height hw32 lx0 ly0 px py hlx0 hpx hly0 hpy
            ((px : ℤ) - (lx0 : ℤ)) ((py : ℤ) - (ly0 : ℤ)) rfl rfl hbr
            ((px : ℤ) - (lx0 : ℤ)).natAbs 0 (ly0 : ℚ) c1 rfl rfl (by omega)
            (by push_cast; ring)
        refine ⟨c2, ?_, hw2, hh2⟩
        simp only [EventCanvas.lineFrom, hcl]
        rw [if_pos hzero, if_pos hbr]
        exact htr
      · have hdy0 : (py : ℤ) - (ly0 : ℤ) ≠ 0 := by
          rcases hzero with hzx | hzy
          · intro hdy
            apply hzx
            omega
          · exact hzy
        obtain ⟨c2, htr, hw2, hh2, hl2⟩ :=
          traceAlongY_safe c1.width c1.height hh32 lx0 ly0 px py hlx0 hpx hly0 hpy
            ((px : ℤ) - (lx0 : ℤ)) ((py : ℤ) - (ly0 : ℤ)) rfl rfl hdy0 (by omega)
            ((py : ℤ) - (ly0 : ℤ)).natAbs 0 (lx0 : ℚ) c1 rfl rfl (by omega)
            (by push_cast; ring)
        refine ⟨c2, ?_, hw2, hh2⟩
        simp only [EventCanvas.lineFrom, hcl]
        rw [if_pos hzero, if_neg hbr]
        exact htr
    · refine ⟨c1, ?_, rfl, rfl⟩
      simp only [EventCanvas.lineFrom, hcl]
      rw [if_neg hzero]

/-- C10: processing an event with normalized coordinates in `[0,1]` on a
canvas with positive `u32` dimensions whose cursor (if any) is in
bounds never performs an out-of-bounds pixel write: the endpoint pixel
and every intermediate line pixel are in bounds, so the `unwrap` of
`index_offset` inside `set` (modelled as `none`) is unreachable, and the
cursor invariant is preserved. -/
theorem EventCanvas_process_safe (c : EventCanvas) (e : SEvent)
    (hwpos : 0 < c.width) (hhpos : 0 < c.height)
    (hw32 : c.width ≤ 2 ^ 32) (hh32 : c.height ≤ 2 ^ 32)
    (hlast : ∀ p, c.last = some p → p.1 < c.width ∧ p.2 < c.height)
    (hx0 : 0 ≤ e.x) (hx1 : e.x ≤ 1) (hy0 : 0 ≤ e.y) (hy1 : e.y ≤ 1) :
    ∃ c', c.process e = some c' ∧ c'.width = c.width ∧ c'.height = c.height ∧
      (∀ p, c'.last = some p → p.1 < c'.width ∧ p.2 < c'.height) := by
  cases ht : e.touching with
  | false =>
    refine ⟨{ c with last := none }, ?_, rfl, rfl, ?_⟩
    · simp only [EventCanvas.process, ht]
      rfl
    · intro p hp
      simp at hp
  | true =>
    have hpxlt : u32_of_f64 (rustRound (((c.width - 1 : ℕ) : ℚ) * e.x)) < c.width := by
      have q0 : 0 ≤ ((c.width - 1 : ℕ) : ℚ) * e.x := mul_nonneg (Nat.cast_nonneg _) hx0
      have q1 : ((c.width - 1 : ℕ) : ℚ) * e.x ≤ ((c.width - 1 : ℕ) : ℚ) :=
        mul_le_of_le_one_right (Nat.cast_nonneg _) hx1
      exact u32_of_f64_lt (rustRound_nonneg q0)
        (lt_of_le_of_lt (rustRound_le q0 (by exact_mod_cast q1)) (by omega))
    have hpylt : u32_of_f64 (rustRound (((c.height - 1 : ℕ) : ℚ) * e.y)) < c.height := by
      have q0 : 0 ≤ ((c.height - 1 : ℕ) : ℚ) * e.y := mul_nonneg (Nat.cast_nonneg _) hy0
      have q1 : ((c.height - 1 : ℕ) : ℚ) * e.y ≤ ((c.height - 1 : ℕ) : ℚ) :=
        mul_le_of_le_one_right (Nat.cast_nonneg _) hy1
      exact u32_of_f64_lt (rustRound_nonneg q0)
        (lt_of_le_of_lt (rustRound_le q0 (by exact_mod_cast q1)) (by omega))
    obtain ⟨c1, hc1, hc1w, hc1h, hc1l⟩ := set_some c _ _ true hpxlt hpylt
    have hlast1 : ∀ p, c1.last = some p → p.1 < c1.width ∧ p.2 < c1.height := by
      intro p hp
      rw [hc1l] at hp
      rw [hc1w, hc1h]
      exact hlast p hp
    obtain ⟨c2, hlf, hw2, hh2⟩ :=
      lineFrom_safe c1 _ _ (by rw [hc1w]; exact hw32) (by rw [hc1h]; exact hh32)
        (by rw [hc1w]; exact hpxlt) (by rw [hc1h]; exact hpylt) hlast1
    refine ⟨{ c2 with last := some (u32_of_f64 (rustRound (((c.width - 1 : ℕ) : ℚ) * e.x)),
        u32_of_f64 (rustRound (((c.height - 1 : ℕ) : ℚ) * e.y))) }, ?_, ?_, ?_, ?_⟩
    · simp only [EventCanvas.process, ht]
      rw [hc1, Option.some_bind, hlf]
      rfl
    · exact hw2.trans hc1w
    · exact hh2.trans hc1h
    · intro p hp
      simp only [Option.some_inj] at hp
      subst hp
      constructor
      · exact lt_of_lt_of_le hpxlt (le_of_eq (hw2.trans hc1w).symm)
      · exact lt_of_lt_of_le hpylt (le_of_eq (hh2.trans hc1h).symm)

/-- Witness for C10: a 4×3 canvas with cursor `(0,0)` processing a
touching event at normalized `(1,1)` (which traces a line to pixel
`(3,2)`). -/
theorem EventCanvas_process_safe_witness :
    ∃ c', EventCanvas.process ⟨[0, 0], 4, 3, some (0, 0)⟩ ⟨1, 1, true⟩ = some c' ∧
      c'.width = 4 ∧ c'.height = 3 ∧
      (∀ p, c'.last = some p → p.1 < c'.width ∧ p.2 < c'.height) :=
  EventCanvas_process_safe ⟨[0, 0], 4, 3, some (0, 0)⟩ ⟨1, 1, true⟩
    (by norm_num) (by norm_num) (by norm_num) (by norm_num)
    (by
      intro p hp
      obtain rfl : ((0 : ℕ), (0 : ℕ)) = p := by simpa using hp
      exact ⟨by norm_num, by norm_num⟩)
    (by norm_num) (by norm_num) (by norm_num) (by norm_num)
